import Mathlib

/-!
Verification development for the `docs-metadata-crawler` Go repository.

The Go sources are shallowly embedded:
* `tUrl` models `net/url.URL` restricted to the components the crawler
  uses (scheme, host, path, raw query); `tUrl.urlString` models
  `URL.String()` for such URLs.
* `tUrlStorage` with `add` / `use` / `getAllUrls` / `check` / `count`
  embeds the URL registry (Go maps become association lists; the Go
  `sync` mutexes serialize every operation, so each Go method becomes a
  single atomic state transition).
* `CrawlStep` is a small-step relation embedding `tEngine.crawl`:
  workers harvesting a page are in-flight tasks whose completion adds
  the page's links (the abstract link graph `links`) to the registry.
* `analyserRun` embeds `tEngine.analyser` (the `Do` network call is an
  abstract `doer` parameter), `output` embeds `tEngine.output` as the
  string it writes, and `readCloserToReadSeekerFile` embeds the size
  check of `researchers.readCloserToReadSeekerFile` (the body is
  modelled by its length; transport errors are out of scope).
-/

namespace DocsCrawler

/-- Model of Go `net/url.URL` restricted to the fields the crawler uses.
`host` is `URL.Host` (may contain a port). -/
structure tUrl where
  scheme : String
  host : String
  path : String
  query : String
  deriving DecidableEq, Repr

/-- Model of `URL.String()` for URLs built from scheme/host/path/query. -/
def tUrl.urlString (u : tUrl) : String :=
  (if u.scheme = "" then "" else u.scheme ++ ":") ++
  (if u.host = "" then "" else "//" ++ u.host) ++
  u.path ++
  (if u.query = "" then "" else "?" ++ u.query)

/-- Go map lookup `m[k]` (as an option), on an association list. -/
def lookupA {β : Type} : String → List (String × β) → Option β
  | _, [] => none
  | k, (k', v) :: t => if k' = k then some v else lookupA k t

/-- Go map assignment `m[k] = v`, on an association list: replaces the
first binding of `k`, or appends a new binding. -/
def updateA {β : Type} : String → β → List (String × β) → List (String × β)
  | k, v, [] => [(k, v)]
  | k, v, (k', v') :: t => if k' = k then (k, v) :: t else (k', v') :: updateA k v t

theorem lookupA_updateA_self {β : Type} (k : String) (v : β) (l : List (String × β)) :
    lookupA k (updateA k v l) = some v := by
  induction l with
  | nil => simp [lookupA, updateA]
  | cons p t ih =>
      obtain ⟨k', v'⟩ := p
      by_cases h : k' = k <;> simp [lookupA, updateA, h, ih]

theorem lookupA_updateA_ne {β : Type} {k k' : String} (v : β) (l : List (String × β))
    (h : k' ≠ k) : lookupA k' (updateA k v l) = lookupA k' l := by
  induction l with
  | nil => simp [lookupA, updateA, Ne.symm h]
  | cons p t ih =>
      obtain ⟨k₀, v₀⟩ := p
      by_cases h0 : k₀ = k
      · subst h0
        simp [lookupA, updateA, Ne.symm h]
      · simp [lookupA, updateA, h0, ih]

theorem updateA_keys_of_mem {β : Type} {k : String} {l : List (String × β)} (v : β)
    (h : (lookupA k l).isSome) :
    (updateA k v l).map Prod.fst = l.map Prod.fst := by
  induction l with
  | nil => simp [lookupA] at h
  | cons p t ih =>
      obtain ⟨k₀, v₀⟩ := p
      by_cases h0 : k₀ = k
      · simp [updateA, h0]
      · simp [lookupA, h0] at h
        simp [updateA, h0, ih h]

theorem lookupA_eq_none_iff {β : Type} {k : String} {l : List (String × β)} :
    lookupA k l = none ↔ k ∉ l.map Prod.fst := by
  induction l with
  | nil => simp [lookupA]
  | cons p t ih =>
      obtain ⟨k₀, v₀⟩ := p
      by_cases h0 : k₀ = k
      · subst h0
        simp [lookupA]
      · simp [lookupA, h0, ih, Ne.symm h0]

theorem lookupA_isSome_iff {β : Type} {k : String} {l : List (String × β)} :
    (lookupA k l).isSome = true ↔ k ∈ l.map Prod.fst := by
  rw [Option.isSome_iff_ne_none]
  simp [Ne, lookupA_eq_none_iff]

theorem lookupA_append_of_none {β : Type} {k : String} {l : List (String × β)}
    (l' : List (String × β)) (h : lookupA k l = none) :
    lookupA k (l ++ l') = lookupA k l' := by
  induction l with
  | nil => simp
  | cons p t ih =>
      obtain ⟨k₀, v₀⟩ := p
      by_cases h0 : k₀ = k
      · simp [lookupA, h0] at h
      · simp [lookupA, h0] at h ⊢
        exact ih h

/-- Model of `tUrlStorage`: URL status map (`true` = used), URL object
map, and the queue of pending keys. -/
structure tUrlStorage where
  urlStatus : List (String × Bool)
  urlObjects : List (String × tUrl)
  queue : List String
  deriving DecidableEq, Repr

/-- Model of `newUrlStorage`. -/
def newUrlStorage : tUrlStorage :=
  { urlStatus := [], urlObjects := [], queue := [] }

/-- Model of `tUrlStorage.add`: `none` models a `nil` `*url.URL`. -/
def tUrlStorage.add (us : tUrlStorage) (u : Option tUrl) : tUrlStorage × Bool :=
  match u with
  | none => (us, false)
  | some u =>
      let key := u.urlString
      if (lookupA key us.urlStatus).isSome then (us, false)
      else
        ({ urlStatus := updateA key false us.urlStatus,
           urlObjects := updateA key u us.urlObjects,
           queue := us.queue ++ [key] }, true)

/-- Go's swap-removal `q[i] = q[len-1]; q = q[:len-1]`. -/
def swapRemove (q : List String) (i : Nat) : List String :=
  (q.set i (q.getLastD "")).dropLast

/-- Model of `tUrlStorage.use`: returns `(url, found, newState)`.  The Go
loop scans `queue` for the first key whose status is not `true`
(a missing key reads as the zero value `false`), marks it used, and
swap-removes it from the queue. -/
def tUrlStorage.use (us : tUrlStorage) : Option tUrl × Bool × tUrlStorage :=
  match us.queue.findIdx? (fun k => !((lookupA k us.urlStatus).getD false)) with
  | none => (none, false, us)
  | some i =>
      let key := (us.queue.get? i).getD ""
      (lookupA key us.urlObjects, true,
        { us with urlStatus := updateA key true us.urlStatus,
                  queue := swapRemove us.queue i })

/-- Model of `tUrlStorage.getAllUrls` (map iteration order is modelled
as insertion order). -/
def tUrlStorage.getAllUrls (us : tUrlStorage) : List tUrl :=
  us.urlObjects.map Prod.snd

/-- Model of `tUrlStorage.check`. -/
def tUrlStorage.check (us : tUrlStorage) (u : Option tUrl) : Bool × Bool :=
  match u with
  | none => (false, false)
  | some u =>
      match lookupA u.urlString us.urlStatus with
      | none => (false, false)
      | some b => (true, b)

/-- Model of `tUrlStorage.count`: `(total, used)`. -/
def tUrlStorage.count (us : tUrlStorage) : Nat × Nat :=
  (us.urlStatus.length, (us.urlStatus.filter (fun p => p.2)).length)

theorem lookupA_mem {β : Type} {k : String} {v : β} {l : List (String × β)}
    (h : lookupA k l = some v) : (k, v) ∈ l := by
  induction l with
  | nil => simp [lookupA] at h
  | cons p t ih =>
      obtain ⟨k₀, v₀⟩ := p
      by_cases h0 : k₀ = k
      · subst h0
        simp [lookupA] at h
        simp [h]
      · simp [lookupA, h0] at h
        simp [ih h]

/-- Representation invariant of `tUrlStorage`, maintained by every
operation: distinct status keys, the queue is exactly the unused keys
(each once), and every status key maps to a stored URL object whose
canonical string is that key, and conversely. -/
def StInv (us : tUrlStorage) : Prop :=
  (us.urlStatus.map Prod.fst).Nodup ∧
  us.queue.Nodup ∧
  (∀ k ∈ us.queue, lookupA k us.urlStatus = some false) ∧
  (∀ p ∈ us.urlStatus, p.2 = false → p.1 ∈ us.queue) ∧
  (us.urlObjects.map Prod.fst = us.urlStatus.map Prod.fst) ∧
  (∀ p ∈ us.urlObjects, (p.2).urlString = p.1)

instance : DecidablePred StInv := fun us => by
  unfold StInv
  infer_instance

theorem lookupA_append_some {β : Type} {k : String} {v : β} {l : List (String × β)}
    (l' : List (String × β)) (h : lookupA k l = some v) :
    lookupA k (l ++ l') = some v := by
  induction l with
  | nil => simp [lookupA] at h
  | cons p t ih =>
      obtain ⟨k₀, v₀⟩ := p
      by_cases h0 : k₀ = k
      · simp [lookupA, h0] at h ⊢
        exact h
      · simp [lookupA, h0] at h ⊢
        exact ih h

theorem updateA_of_lookup_none {β : Type} {k : String} {l : List (String × β)} (v : β)
    (h : lookupA k l = none) : updateA k v l = l ++ [(k, v)] := by
  induction l with
  | nil => simp [updateA]
  | cons p t ih =>
      obtain ⟨k₀, v₀⟩ := p
      by_cases h0 : k₀ = k
      · simp [lookupA, h0] at h
      · simp [lookupA, h0] at h
        simp [updateA, h0, ih h]

theorem mem_updateA_nodup {β : Type} {k : String} {v : β} {l : List (String × β)}
    (hnd : (l.map Prod.fst).Nodup) (hk : (lookupA k l).isSome) (p : String × β) :
    p ∈ updateA k v l ↔ (p = (k, v) ∨ (p ∈ l ∧ p.1 ≠ k)) := by
  induction l with
  | nil => simp [lookupA] at hk
  | cons q t ih =>
      obtain ⟨k₀, v₀⟩ := q
      simp only [List.map_cons, List.nodup_cons] at hnd
      by_cases h0 : k₀ = k
      · subst h0
        have ht : ∀ r ∈ t, (r : String × β).1 ≠ k₀ := by
          intro r hr hrk
          exact hnd.1 (hrk ▸ List.mem_map_of_mem Prod.fst hr)
        constructor
        · intro hp
          simp [updateA] at hp
          rcases hp with hp | hp
          · exact Or.inl hp
          · exact Or.inr ⟨List.mem_cons_of_mem _ hp, ht p hp⟩
        · intro hp
          rcases hp with hp | ⟨hp, hpk⟩
          · simp [updateA, hp]
          · rcases List.mem_cons.mp hp with hp | hp
            · exact absurd (by simp [hp]) hpk
            · simp [updateA]
              exact Or.inr hp
      · simp [lookupA, h0] at hk
        constructor
        · intro hp
          simp [updateA, h0] at hp
          rcases hp with hp | hp
          · refine Or.inr ⟨by simp [hp], ?_⟩
            simp [hp]
            exact h0
          · rcases (ih hnd.2 hk).mp hp with hp | ⟨hp', hpk⟩
            · exact Or.inl hp
            · exact Or.inr ⟨List.mem_cons_of_mem _ hp', hpk⟩
        · intro hp
          simp [updateA, h0]
          rcases hp with hp | ⟨hp, hpk⟩
          · exact Or.inr ((ih hnd.2 hk).mpr (Or.inl hp))
          · rcases List.mem_cons.mp hp with hp | hp
            · exact Or.inl hp
            · exact Or.inr ((ih hnd.2 hk).mpr (Or.inr ⟨hp, hpk⟩))

/-- Number of unused entries in the status map. -/
def unusedCount (us : tUrlStorage) : Nat :=
  (us.urlStatus.filter (fun p => !p.2)).length

theorem unusedCount_updateA_true {l : List (String × Bool)} {k : String}
    (h : lookupA k l = some false) :
    ((updateA k true l).filter (fun p => !p.2)).length + 1 =
      (l.filter (fun p => !p.2)).length := by
  induction l with
  | nil => simp [lookupA] at h
  | cons q t ih =>
      obtain ⟨k₀, v₀⟩ := q
      by_cases h0 : k₀ = k
      · simp [lookupA, h0] at h
        subst h
        simp [updateA, h0, List.filter]
      · simp [lookupA, h0] at h
        cases v₀ <;> simp [updateA, h0, List.filter, ih h]

theorem length_updateA_of_mem {β : Type} {k : String} {l : List (String × β)} (v : β)
    (h : (lookupA k l).isSome) : (updateA k v l).length = l.length := by
  have := @updateA_keys_of_mem _ k l v h
  have h1 : ((updateA k v l).map Prod.fst).length = (l.map Prod.fst).length := by rw [this]
  simpa using h1

theorem swapRemove_cons_zero_perm (k : String) (t : List String) :
    List.Perm (swapRemove (k :: t) 0) t := by
  rcases eq_or_ne t [] with ht | ht
  · subst ht
    simp [swapRemove]
  · have hlast : (k :: t).getLastD "" = t.getLast ht := by
      rw [List.getLastD_cons, List.getLastD_eq_getLast?, List.getLast?_eq_getLast t ht]
      rfl
    have hset : (k :: t).set 0 (t.getLast ht) = t.getLast ht :: t := rfl
    have hdrop : (t.getLast ht :: t).dropLast = t.getLast ht :: t.dropLast :=
      List.dropLast_cons_of_ne_nil ht
    have : swapRemove (k :: t) 0 = t.getLast ht :: t.dropLast := by
      rw [swapRemove, hlast, hset, hdrop]
    rw [this]
    calc List.Perm (t.getLast ht :: t.dropLast) (t.dropLast ++ [t.getLast ht]) :=
          (List.perm_append_singleton _ _).symm
      _ = t := List.dropLast_append_getLast ht

theorem use_queue_nil {us : tUrlStorage} (h : us.queue = []) :
    us.use = (none, false, us) := by
  simp [tUrlStorage.use, h]

/-- Full characterization of a successful `use` call on a storage
satisfying the invariant: the head of the queue is acquired. -/
theorem use_found {us : tUrlStorage} (hInv : StInv us) {k : String} {t : List String}
    (hq : us.queue = k :: t) :
    ∃ u st', us.use = (some u, true, st') ∧
      u.urlString = k ∧
      lookupA k us.urlObjects = some u ∧
      lookupA k us.urlStatus = some false ∧
      st'.urlStatus = updateA k true us.urlStatus ∧
      st'.urlObjects = us.urlObjects ∧
      List.Perm st'.queue t ∧
      StInv st' := by
  obtain ⟨hnd, hqnd, hq3, hq4, hok, hov⟩ := hInv
  have hk : lookupA k us.urlStatus = some false := hq3 k (by rw [hq]; exact List.mem_cons_self k t)
  have hkSome : (lookupA k us.urlStatus).isSome := by rw [hk]; rfl
  have hidx : us.queue.findIdx? (fun k' => !((lookupA k' us.urlStatus).getD false)) = some 0 := by
    rw [hq]
    simp [List.findIdx?_cons, hk]
  have hkobj : (lookupA k us.urlObjects).isSome := by
    rw [lookupA_isSome_iff, hok, ← lookupA_isSome_iff]
    exact hkSome
  obtain ⟨u, hu⟩ := Option.isSome_iff_exists.mp hkobj
  have hustr : u.urlString = k := hov (k, u) (lookupA_mem hu)
  have hqnd' : (k :: t).Nodup := hq ▸ hqnd
  have hknt : k ∉ t := (List.nodup_cons.mp hqnd').1
  have htnd : t.Nodup := (List.nodup_cons.mp hqnd').2
  have hperm : List.Perm (swapRemove us.queue 0) t := by
    rw [hq]
    exact swapRemove_cons_zero_perm k t
  refine ⟨u, ⟨updateA k true us.urlStatus, us.urlObjects, swapRemove us.queue 0⟩,
    ?_, hustr, hu, hk, rfl, rfl, hperm, ?_⟩
  · simp only [tUrlStorage.use, hidx]
    rw [hq]
    simp [hu]
  · refine ⟨?_, ?_, ?_, ?_, ?_, ?_⟩
    · rw [updateA_keys_of_mem true hkSome]
      exact hnd
    · exact hperm.nodup_iff.mpr htnd
    · intro k' hk'
      have hk't : k' ∈ t := hperm.mem_iff.mp hk'
      have hk'ne : k' ≠ k := fun h => hknt (h ▸ hk't)
      rw [lookupA_updateA_ne true us.urlStatus hk'ne]
      exact hq3 k' (by rw [hq]; exact List.mem_cons_of_mem k hk't)
    · intro p hp hpf
      rcases (mem_updateA_nodup hnd hkSome p).mp hp with hp | ⟨hp, hpk⟩
      · rw [hp] at hpf
        simp at hpf
      · have : p.1 ∈ us.queue := hq4 p hp hpf
        rw [hq] at this
        rcases List.mem_cons.mp this with h | h
        · exact absurd h hpk
        · exact hperm.mem_iff.mpr h
    · rw [updateA_keys_of_mem true hkSome]
      exact hok
    · exact hov

theorem use_preserves_StInv {us : tUrlStorage} (hInv : StInv us) :
    StInv (us.use).2.2 := by
  rcases hq : us.queue with _ | ⟨k, t⟩
  · rw [use_queue_nil hq]
    exact hInv
  · obtain ⟨u, st', huse, -, -, -, -, -, -, hInv'⟩ := use_found hInv hq
    rw [huse]
    exact hInv'

theorem use_preserves_used {us : tUrlStorage} (hInv : StInv us) {k' : String}
    (h : lookupA k' us.urlStatus = some true) :
    lookupA k' (us.use).2.2.urlStatus = some true := by
  rcases hq : us.queue with _ | ⟨k, t⟩
  · rw [use_queue_nil hq]
    exact h
  · obtain ⟨u, st', huse, -, -, hkf, hst, -, -, -⟩ := use_found hInv hq
    rw [huse]
    simp only
    rw [hst]
    by_cases hkk : k' = k
    · subst hkk
      rw [h] at hkf
      simp at hkf
    · rw [lookupA_updateA_ne true us.urlStatus hkk]
      exact h

/-- All-used characterization of the empty queue, under the invariant. -/
theorem queue_nil_iff_all_used {us : tUrlStorage} (hInv : StInv us) :
    us.queue = [] ↔ ∀ p ∈ us.urlStatus, p.2 = true := by
  obtain ⟨hnd, hqnd, hq3, hq4, hok, hov⟩ := hInv
  constructor
  · intro h p hp
    cases hb : p.2
    · have := hq4 p hp hb
      rw [h] at this
      simp at this
    · rfl
  · intro h
    rcases hq : us.queue with _ | ⟨k, t⟩
    · rfl
    · have hk : lookupA k us.urlStatus = some false :=
        hq3 k (by rw [hq]; exact List.mem_cons_self k t)
      have := h (k, false) (lookupA_mem hk)
      simp at this

/-- Repeated `use` calls, collecting the returned URLs (models a
sequence of `acquire_next` calls by the coordinator). -/
def useMany : Nat → tUrlStorage → List tUrl × tUrlStorage
  | 0, us => ([], us)
  | n+1, us =>
      match us.use with
      | (some u, _, st') =>
          let r := useMany n st'
          (u :: r.1, r.2)
      | (none, _, _) => ([], us)

theorem useMany_mem_unused {n : Nat} {us : tUrlStorage} (hInv : StInv us) :
    ∀ v ∈ (useMany n us).1, lookupA v.urlString us.urlStatus = some false := by
  induction n generalizing us with
  | zero => simp [useMany]
  | succ n ih =>
      intro v hv
      rcases hq : us.queue with _ | ⟨k, t⟩
      · rw [useMany, use_queue_nil hq] at hv
        simp at hv
      · obtain ⟨u, st', huse, hustr, -, hkf, hst, -, -, hInv'⟩ := use_found hInv hq
        rw [useMany, huse] at hv
        simp only [List.mem_cons] at hv
        rcases hv with hv | hv
        · rw [hv, hustr]
          exact hkf
        · have hvst' := ih hInv' v hv
          by_cases hvk : v.urlString = k
          · rw [hvk, hst, lookupA_updateA_self] at hvst'
            simp at hvst'
          · rw [hst, lookupA_updateA_ne true us.urlStatus hvk] at hvst'
            exact hvst'

theorem useMany_nodup {n : Nat} {us : tUrlStorage} (hInv : StInv us) :
    (((useMany n us).1.map tUrl.urlString)).Nodup := by
  induction n generalizing us with
  | zero => simp [useMany]
  | succ n ih =>
      rcases hq : us.queue with _ | ⟨k, t⟩
      · rw [useMany, use_queue_nil hq]
        simp
      · obtain ⟨u, st', huse, hustr, -, hkf, hst, -, -, hInv'⟩ := use_found hInv hq
        rw [useMany, huse]
        simp only [List.map_cons, List.nodup_cons]
        refine ⟨?_, ih hInv'⟩
        intro hmem
        obtain ⟨v, hv, hveq⟩ := List.mem_map.mp hmem
        have := useMany_mem_unused hInv' v hv
        rw [hveq, hustr, hst, lookupA_updateA_self] at this
        simp at this

/-- A sequence of `add` calls (as performed by `harv` while scanning a
page's anchors; `none` models a `nil` pointer). -/
def tUrlStorage.addAll (us : tUrlStorage) (l : List (Option tUrl)) : tUrlStorage :=
  l.foldl (fun s u => (s.add u).1) us

theorem add_none (us : tUrlStorage) : us.add none = (us, false) := rfl

theorem add_dup {us : tUrlStorage} {u : tUrl}
    (h : (lookupA u.urlString us.urlStatus).isSome) : us.add (some u) = (us, false) := by
  simp [tUrlStorage.add, h]

theorem add_new {us : tUrlStorage} {u : tUrl}
    (h : lookupA u.urlString us.urlStatus = none) :
    us.add (some u) =
      (⟨us.urlStatus ++ [(u.urlString, false)],
        updateA u.urlString u us.urlObjects,
        us.queue ++ [u.urlString]⟩, true) := by
  have h' : ¬ (lookupA u.urlString us.urlStatus).isSome = true := by simp [h]
  simp only [tUrlStorage.add, h', if_false]
  rw [updateA_of_lookup_none false h]
  simp

theorem add_keys_mem (us : tUrlStorage) (u? : Option tUrl) (k : String) :
    k ∈ (us.add u?).1.urlStatus.map Prod.fst ↔
      (k ∈ us.urlStatus.map Prod.fst ∨ ∃ v, u? = some v ∧ k = v.urlString) := by
  rcases u? with _ | v
  · simp [add_none]
  · by_cases h : (lookupA v.urlString us.urlStatus).isSome
    · rw [add_dup h]
      have hv : v.urlString ∈ us.urlStatus.map Prod.fst := lookupA_isSome_iff.mp h
      simp only [Option.some.injEq]
      constructor
      · exact fun hk => Or.inl hk
      · rintro (hk | ⟨w, rfl, hkw⟩)
        · exact hk
        · exact hkw ▸ hv
    · have hnone : lookupA v.urlString us.urlStatus = none :=
        Option.not_isSome_iff_eq_none.mp h
      rw [add_new hnone]
      simp only [List.map_append, List.mem_append, List.map_cons, List.map_nil,
        List.mem_singleton, Option.some.injEq]
      constructor
      · rintro (hk | hk)
        · exact Or.inl hk
        · exact Or.inr ⟨v, rfl, hk⟩
      · rintro (hk | ⟨w, rfl, hkw⟩)
        · exact Or.inl hk
        · exact Or.inr hkw

theorem add_keys_nodup {us : tUrlStorage} (u? : Option tUrl)
    (h : (us.urlStatus.map Prod.fst).Nodup) :
    ((us.add u?).1.urlStatus.map Prod.fst).Nodup := by
  rcases u? with _ | v
  · rw [add_none]
    exact h
  · by_cases hs : (lookupA v.urlString us.urlStatus).isSome
    · rw [add_dup hs]
      exact h
    · have hnone : lookupA v.urlString us.urlStatus = none :=
        Option.not_isSome_iff_eq_none.mp hs
      rw [add_new hnone]
      simp only [List.map_append, List.map_cons, List.map_nil]
      rw [List.nodup_append]
      refine ⟨h, List.nodup_singleton _, ?_⟩
      intro a ha hb
      simp only [List.mem_singleton] at hb
      subst hb
      exact (lookupA_eq_none_iff.mp hnone) ha

theorem add_preserves_StInv {us : tUrlStorage} (u? : Option tUrl) (hInv : StInv us) :
    StInv (us.add u?).1 := by
  obtain ⟨hnd, hqnd, hq3, hq4, hok, hov⟩ := hInv
  rcases u? with _ | v
  · rw [add_none]
    exact ⟨hnd, hqnd, hq3, hq4, hok, hov⟩
  · by_cases hs : (lookupA v.urlString us.urlStatus).isSome
    · rw [add_dup hs]
      exact ⟨hnd, hqnd, hq3, hq4, hok, hov⟩
    · have hnone : lookupA v.urlString us.urlStatus = none :=
        Option.not_isSome_iff_eq_none.mp hs
      have hkmem : v.urlString ∉ us.urlStatus.map Prod.fst := lookupA_eq_none_iff.mp hnone
      have hkq : v.urlString ∉ us.queue := by
        intro hq
        have := hq3 _ hq
        rw [hnone] at this
        exact Option.noConfusion this
      have hobjnone : lookupA v.urlString us.urlObjects = none := by
        rw [lookupA_eq_none_iff, hok]
        exact hkmem
      rw [add_new hnone]
      simp only
      rw [updateA_of_lookup_none v hobjnone]
      refine ⟨?_, ?_, ?_, ?_, ?_, ?_⟩
      · have := @add_keys_nodup us (some v) hnd
        rw [add_new hnone] at this
        exact this
      · rw [List.nodup_append]
        exact ⟨hqnd, List.nodup_singleton _, by
          intro a ha hb
          simp only [List.mem_singleton] at hb
          exact hkq (hb ▸ ha)⟩
      · intro k hk
        rcases List.mem_append.mp hk with hk | hk
        · exact lookupA_append_some _ (hq3 k hk)
        · simp only [List.mem_singleton] at hk
          subst hk
          rw [lookupA_append_of_none _ hnone]
          simp [lookupA]
      · intro p hp hpf
        rcases List.mem_append.mp hp with hp | hp
        · exact List.mem_append.mpr (Or.inl (hq4 p hp hpf))
        · simp only [List.mem_singleton] at hp
          subst hp
          exact List.mem_append.mpr (Or.inr (by simp))
      · simp only [List.map_append, List.map_cons, List.map_nil]
        rw [hok]
      · intro p hp
        rcases List.mem_append.mp hp with hp | hp
        · exact hov p hp
        · simp only [List.mem_singleton] at hp
          subst hp
          rfl

theorem addAll_keys_mem (l : List (Option tUrl)) :
    ∀ (us : tUrlStorage) (k : String),
      k ∈ (us.addAll l).urlStatus.map Prod.fst ↔
        (k ∈ us.urlStatus.map Prod.fst ∨ k ∈ (l.filterMap id).map tUrl.urlString) := by
  induction l with
  | nil => simp [tUrlStorage.addAll]
  | cons u? t ih =>
      intro us k
      have hstep : us.addAll (u? :: t) = ((us.add u?).1).addAll t := rfl
      rw [hstep, ih]
      rw [add_keys_mem]
      rcases u? with _ | v
      · simp
      · simp only [List.filterMap_cons, id, List.map_cons, List.mem_cons,
          Option.some.injEq]
        constructor
        · rintro ((hk | ⟨w, rfl, hkw⟩) | hk)
          · exact Or.inl hk
          · exact Or.inr (Or.inl hkw)
          · exact Or.inr (Or.inr hk)
        · rintro (hk | hk | hk)
          · exact Or.inl (Or.inl hk)
          · exact Or.inl (Or.inr ⟨v, rfl, hk⟩)
          · exact Or.inr hk

theorem addAll_keys_nodup (l : List (Option tUrl)) :
    ∀ (us : tUrlStorage), (us.urlStatus.map Prod.fst).Nodup →
      ((us.addAll l).urlStatus.map Prod.fst).Nodup := by
  induction l with
  | nil => exact fun us h => h
  | cons u? t ih =>
      intro us h
      exact ih _ (add_keys_nodup u? h)

theorem addAll_preserves_StInv (l : List (Option tUrl)) :
    ∀ (us : tUrlStorage), StInv us → StInv (us.addAll l) := by
  induction l with
  | nil => exact fun us h => h
  | cons u? t ih =>
      intro us h
      exact ih _ (add_preserves_StInv u? h)

theorem addAll_total (inputs : List (Option tUrl)) :
    ((newUrlStorage.addAll inputs).count).1 =
      ((inputs.filterMap id).map tUrl.urlString).dedup.length := by
  have hkeys := addAll_keys_mem inputs newUrlStorage
  have hnd : (((newUrlStorage.addAll inputs).urlStatus.map Prod.fst)).Nodup :=
    addAll_keys_nodup inputs newUrlStorage (by simp [newUrlStorage])
  have hperm : List.Perm ((newUrlStorage.addAll inputs).urlStatus.map Prod.fst)
      ((inputs.filterMap id).map tUrl.urlString).dedup := by
    rw [List.perm_ext_iff_of_nodup hnd (List.nodup_dedup _)]
    intro k
    rw [List.mem_dedup, hkeys k]
    simp [newUrlStorage]
  have hlen := hperm.length_eq
  rw [List.length_map] at hlen
  simp only [tUrlStorage.count]
  exact hlen

/-- Sample URLs and a sample storage for concrete evaluations. -/
def sampleUrl1 : tUrl := ⟨"https", "example.com", "/a", ""⟩

def sampleUrl2 : tUrl := ⟨"https", "example.com", "/b", ""⟩

def sampleStorage : tUrlStorage :=
  ((newUrlStorage.add (some sampleUrl1)).1.add (some sampleUrl2)).1

/-- C1: `tUrlStorage.use` (the spec's `acquire_next`) on any storage
satisfying the representation invariant: a successful call returns one
entry whose status was `unused`, flips exactly that status to `used`
(all other statuses untouched) and preserves the invariant; an
unsuccessful call returns not-found with the state unchanged and means
every entry is used; conversely when every entry is used the call
reports not-found; a `used` status is never reverted by a call
(one-way transition); and across any sequence of calls no entry is ever
returned twice, so after all entries are acquired every further call
reports not-found forever (monotone exhaustion, state unchanged). -/
theorem acquire_next_spec (us : tUrlStorage) (hInv : StInv us) :
    (∀ u found st', us.use = (u, found, st') → found = true →
       ∃ v, u = some v ∧
         lookupA v.urlString us.urlStatus = some false ∧
         lookupA v.urlString st'.urlStatus = some true ∧
         (∀ k, k ≠ v.urlString → lookupA k st'.urlStatus = lookupA k us.urlStatus) ∧
         StInv st')
    ∧ ((us.use).2.1 = false →
        us.use = (none, false, us) ∧ ∀ p ∈ us.urlStatus, p.2 = true)
    ∧ ((∀ p ∈ us.urlStatus, p.2 = true) → us.use = (none, false, us))
    ∧ (∀ k, lookupA k us.urlStatus = some true →
        lookupA k (us.use).2.2.urlStatus = some true)
    ∧ (∀ n, (((useMany n us).1.map tUrl.urlString)).Nodup) := by
  refine ⟨?_, ?_, ?_, ?_, ?_⟩
  · intro u found st' huse hfound
    rcases hq : us.queue with _ | ⟨k, t⟩
    · rw [use_queue_nil hq] at huse
      injection huse with h1 h2
      injection h2 with h2 h3
      rw [← h2] at hfound
      exact absurd hfound (by simp)
    · obtain ⟨v, st'', huse', hustr, -, hkf, hst, -, -, hInv'⟩ := use_found hInv hq
      rw [huse'] at huse
      injection huse with h1 h2
      injection h2 with h2 h3
      subst h1
      subst h3
      refine ⟨v, rfl, hustr ▸ hkf, ?_, ?_, hInv'⟩
      · rw [hustr, hst, lookupA_updateA_self]
      · intro k' hk'
        rw [hst, lookupA_updateA_ne true us.urlStatus (hustr ▸ hk')]
  · intro hfound
    rcases hq : us.queue with _ | ⟨k, t⟩
    · exact ⟨use_queue_nil hq, (queue_nil_iff_all_used hInv).mp hq⟩
    · obtain ⟨v, st'', huse', -, -, -, -, -, -, -⟩ := use_found hInv hq
      rw [huse'] at hfound
      simp at hfound
  · intro hall
    exact use_queue_nil ((queue_nil_iff_all_used hInv).mpr hall)
  · intro k hk
    exact use_preserves_used hInv hk
  · intro n
    exact useMany_nodup hInv

theorem acquire_next_spec_witness :
    ((useMany 2 sampleStorage).1.map tUrl.urlString).Nodup :=
  (acquire_next_spec sampleStorage (by decide)).2.2.2.2 2

/-- C2 counterexample: the claim says `add` returns `false` for a
null/empty input, but for a non-nil URL whose canonical string is empty
(Go's zero `url.URL`, e.g. the result of `url.Parse("")`) the code
finds no existing entry for the key `""`, inserts it, and returns
`true`. Only a `nil` pointer yields `false`. -/
theorem add_empty_url_counterexample :
    (newUrlStorage.add (some ⟨"", "", "", ""⟩)).2 = true ∧
      (tUrl.urlString ⟨"", "", "", ""⟩) = "" := by decide

/-- C2 (amended): `add` inserts the canonical form if absent and returns
whether insertion occurred — `false` for duplicates or a nil input (a
non-nil URL with an empty canonical string is inserted like any other);
for any sequence of `add` calls the final entry count equals the number
of distinct canonical URL strings among the non-nil submissions;
entries are never deleted; and `add` preserves the invariant. -/
theorem add_spec :
    (∀ us : tUrlStorage, us.add none = (us, false))
    ∧ (∀ (us : tUrlStorage) (u : tUrl), (lookupA u.urlString us.urlStatus).isSome →
        us.add (some u) = (us, false))
    ∧ (∀ (us : tUrlStorage) (u : tUrl), lookupA u.urlString us.urlStatus = none →
        (us.add (some u)).2 = true ∧
        lookupA u.urlString (us.add (some u)).1.urlStatus = some false)
    ∧ (∀ (us : tUrlStorage) (u? : Option tUrl) (k : String),
        k ∈ us.urlStatus.map Prod.fst → k ∈ (us.add u?).1.urlStatus.map Prod.fst)
    ∧ (∀ (us : tUrlStorage) (u? : Option tUrl), StInv us → StInv (us.add u?).1)
    ∧ (∀ inputs : List (Option tUrl),
        ((newUrlStorage.addAll inputs).count).1 =
          ((inputs.filterMap id).map tUrl.urlString).dedup.length) := by
  refine ⟨fun us => add_none us, ?_, ?_, ?_, ?_, addAll_total⟩
  · intro us u h
    exact add_dup h
  · intro us u h
    rw [add_new h]
    refine ⟨rfl, ?_⟩
    simp only
    rw [lookupA_append_of_none _ h]
    simp [lookupA]
  · intro us u? k hk
    exact (add_keys_mem us u? k).mpr (Or.inl hk)
  · intro us u? h
    exact add_preserves_StInv u? h

theorem add_spec_witness :
    (newUrlStorage.add (some sampleUrl1)).2 = true :=
  (add_spec.2.2.1 newUrlStorage sampleUrl1 (by decide)).1

/-- Go `strings.HasSuffix s post`: byte-wise
`len(s) >= len(post) && s[len(s)-len(post):] == post` (modelled
char-wise). -/
def strHasSuffix (s post : String) : Bool :=
  if post.data.length ≤ s.data.length then
    decide (s.data.drop (s.data.length - post.data.length) = post.data)
  else false

/-- The suffix dispatch of `tEngine.analyser`: the first requested
document type `t` such that the URL's canonical string ends in `"." ++ t`
(the loop over `engine.docTypes` with `strings.HasSuffix(url.String(), "."+t)`
and `break` after the first match). -/
def dispatchType (docTypes : List String) (s : String) : Option String :=
  docTypes.find? (fun t => strHasSuffix s ("." ++ t))

/-- One iteration of the `analyser` loop body for URL `u`:
`acc.1` is `engine.docStorage` (keyed by `url.String()`, holding the
metadata the stored researcher will later serialize), `acc.2` is the
log of dispatched `(url, type)` pairs.  `doer t s` models
`researchers.New(t).Do(s)`: `some m` on success (with `m` the metadata
JSON the researcher now holds), `none` on error. -/
def analyserStep (docTypes : List String) (doer : String → String → Option String)
    (acc : List (String × String) × List (String × String)) (u : tUrl) :
    List (String × String) × List (String × String) :=
  match dispatchType docTypes u.urlString with
  | none => acc
  | some t =>
      match doer t u.urlString with
      | some m => (updateA u.urlString m acc.1, acc.2 ++ [(u.urlString, t)])
      | none => (acc.1, acc.2 ++ [(u.urlString, t)])

/-- Model of `tEngine.analyser` over the URL list (in Go,
`engine.urlStorage.getAllUrls()`): resulting `docStorage` and dispatch
log. -/
def analyserRun (docTypes : List String) (doer : String → String → Option String)
    (urls : List tUrl) : List (String × String) × List (String × String) :=
  urls.foldl (analyserStep docTypes doer) ([], [])

/-- The Go `analyser` method's return value: it ends in `return nil`
unconditionally, surfacing no error. -/
def analyserReturnValue (_docTypes : List String) (_doer : String → String → Option String)
    (_urls : List tUrl) : Option String := none

theorem analyserRun_log (docTypes : List String) (doer : String → String → Option String) :
    ∀ (urls : List tUrl) (acc : List (String × String) × List (String × String)),
      (urls.foldl (analyserStep docTypes doer) acc).2 =
        acc.2 ++ urls.filterMap
          (fun u => (dispatchType docTypes u.urlString).map (fun t => (u.urlString, t))) := by
  intro urls
  induction urls with
  | nil => simp
  | cons u rest ih =>
      intro acc
      rcases hd : dispatchType docTypes u.urlString with _ | t
      · simp only [List.foldl_cons, List.filterMap_cons, hd, Option.map_none]
        rw [ih]
        congr 1
        simp [analyserStep, hd]
      · rcases hdo : doer t u.urlString with _ | m
        · simp only [List.foldl_cons, List.filterMap_cons, hd, Option.map_some]
          rw [show analyserStep docTypes doer acc u = (acc.1, acc.2 ++ [(u.urlString, t)]) by
            simp [analyserStep, hd, hdo]]
          rw [ih]
          simp
        · simp only [List.foldl_cons, List.filterMap_cons, hd, Option.map_some]
          rw [show analyserStep docTypes doer acc u =
              (updateA u.urlString m acc.1, acc.2 ++ [(u.urlString, t)]) by
            simp [analyserStep, hd, hdo]]
          rw [ih]
          simp

theorem analyserRun_log_fst (docTypes : List String) (doer : String → String → Option String)
    (urls : List tUrl) :
    (analyserRun docTypes doer urls).2.map Prod.fst =
      (urls.filter (fun u => (dispatchType docTypes u.urlString).isSome)).map tUrl.urlString := by
  rw [analyserRun, analyserRun_log]
  simp only [List.nil_append]
  induction urls with
  | nil => simp
  | cons u rest ih =>
      rcases hd : dispatchType docTypes u.urlString with _ | t
      · simp [List.filterMap_cons, List.filter_cons, hd, ih]
      · simp [List.filterMap_cons, List.filter_cons, hd, ih]

theorem lookup_analyser_foldl (docTypes : List String) (doer : String → String → Option String) :
    ∀ (urls : List tUrl) (acc : List (String × String) × List (String × String)) (s : String),
      (urls.map tUrl.urlString).Nodup →
      lookupA s (urls.foldl (analyserStep docTypes doer) acc).1 =
        if s ∈ urls.map tUrl.urlString then
          match dispatchType docTypes s with
          | some t =>
              match doer t s with
              | some m => some m
              | none => lookupA s acc.1
          | none => lookupA s acc.1
        else lookupA s acc.1 := by
  intro urls
  induction urls with
  | nil => simp
  | cons u rest ih =>
      intro acc s hnd
      simp only [List.map_cons, List.nodup_cons] at hnd
      by_cases hs : s = u.urlString
      · subst hs
        have hnotin : u.urlString ∉ rest.map tUrl.urlString := hnd.1
        simp only [List.foldl_cons, List.map_cons]
        rw [if_pos (List.mem_cons_self _ _)]
        rw [ih _ u.urlString hnd.2, if_neg hnotin]
        rcases hd : dispatchType docTypes u.urlString with _ | t
        · simp [analyserStep, hd]
        · rcases hdo : doer t u.urlString with _ | m
          · simp [analyserStep, hd, hdo]
          · simp [analyserStep, hd, hdo, lookupA_updateA_self]
      · simp only [List.foldl_cons, List.map_cons, List.mem_cons]
        have hstep : lookupA s (analyserStep docTypes doer acc u).1 = lookupA s acc.1 := by
          rcases hd : dispatchType docTypes u.urlString with _ | t
          · simp [analyserStep, hd]
          · rcases hdo : doer t u.urlString with _ | m
            · simp [analyserStep, hd, hdo]
            · simp [analyserStep, hd, hdo, lookupA_updateA_ne m acc.1 hs]
        rw [ih _ s hnd.2, hstep]
        simp [hs]

theorem lookup_analyser_no_dispatch (docTypes : List String)
    (doer : String → String → Option String) {s : String}
    (hd : dispatchType docTypes s = none) :
    ∀ (urls : List tUrl) (acc : List (String × String) × List (String × String)),
      lookupA s (urls.foldl (analyserStep docTypes doer) acc).1 = lookupA s acc.1 := by
  intro urls
  induction urls with
  | nil => simp
  | cons u rest ih =>
      intro acc
      simp only [List.foldl_cons]
      rw [ih]
      by_cases hs : s = u.urlString
      · subst hs
        simp [analyserStep, hd]
      · rcases hd' : dispatchType docTypes u.urlString with _ | t
        · simp [analyserStep, hd']
        · rcases hdo : doer t u.urlString with _ | m
          · simp [analyserStep, hd', hdo]
          · simp [analyserStep, hd', hdo, lookupA_updateA_ne m acc.1 hs]

theorem dispatchType_eq_some_iff (docTypes : List String) (s t : String) :
    dispatchType docTypes s = some t ↔
      ∃ l₁ l₂, docTypes = l₁ ++ t :: l₂ ∧ strHasSuffix s ("." ++ t) = true ∧
        ∀ t' ∈ l₁, strHasSuffix s ("." ++ t') = false := by
  induction docTypes with
  | nil =>
      simp only [dispatchType, List.find?_nil]
      constructor
      · intro h
        exact Option.noConfusion h
      · rintro ⟨l₁, l₂, h, -, -⟩
        exact absurd h (List.append_ne_nil_of_right_ne_nil l₁ (List.cons_ne_nil t l₂)).symm
  | cons a rest ih =>
      by_cases ha : strHasSuffix s ("." ++ a) = true
      · rw [show dispatchType (a :: rest) s = some a by simp [dispatchType, List.find?_cons, ha]]
        constructor
        · intro h
          injection h with h
          exact ⟨[], rest, by simp [h], h ▸ ha, by simp⟩
        · rintro ⟨l₁, l₂, hdec, hsuf, hnone⟩
          rcases l₁ with _ | ⟨b, l₁'⟩
          · simp only [List.nil_append, List.cons.injEq] at hdec
            exact congrArg some hdec.1
          · simp only [List.cons_append, List.cons.injEq] at hdec
            have := hnone b (List.mem_cons_self b l₁')
            rw [hdec.1] at ha
            rw [ha] at this
            exact Bool.noConfusion this
      · have ha' : strHasSuffix s ("." ++ a) = false := by
          cases h : strHasSuffix s ("." ++ a)
          · rfl
          · exact absurd h ha
        rw [show dispatchType (a :: rest) s = dispatchType rest s by
          simp [dispatchType, List.find?_cons, ha']]
        rw [ih]
        constructor
        · rintro ⟨l₁, l₂, hdec, hsuf, hnone⟩
          refine ⟨a :: l₁, l₂, by simp [hdec], hsuf, ?_⟩
          intro t' ht'
          rcases List.mem_cons.mp ht' with ht' | ht'
          · exact ht' ▸ ha'
          · exact hnone t' ht'
        · rintro ⟨l₁, l₂, hdec, hsuf, hnone⟩
          rcases l₁ with _ | ⟨b, l₁'⟩
          · simp only [List.nil_append, List.cons.injEq] at hdec
            rw [hdec.1] at ha'
            rw [ha'] at hsuf
            exact Bool.noConfusion hsuf
          · simp only [List.cons_append, List.cons.injEq] at hdec
            refine ⟨l₁', l₂, hdec.2, hsuf, ?_⟩
            intro t' ht'
            exact hnone t' (List.mem_cons_of_mem b ht')

theorem dispatchType_isSome_iff (docTypes : List String) (s : String) :
    (dispatchType docTypes s).isSome = true ↔
      ∃ t ∈ docTypes, strHasSuffix s ("." ++ t) = true := by
  induction docTypes with
  | nil => simp [dispatchType]
  | cons a rest ih =>
      by_cases ha : strHasSuffix s ("." ++ a) = true
      · simp only [dispatchType, List.find?_cons, ha, if_true]
        simp only [Option.isSome_some, true_iff]
        exact ⟨a, List.mem_cons_self a rest, ha⟩
      · have ha' : strHasSuffix s ("." ++ a) = false := by
          cases h : strHasSuffix s ("." ++ a)
          · rfl
          · exact absurd h ha
        simp only [dispatchType, List.find?_cons, ha', if_false]
        rw [dispatchType] at ih
        rw [ih]
        constructor
        · rintro ⟨t, ht, hsuf⟩
          exact ⟨t, List.mem_cons_of_mem a ht, hsuf⟩
        · rintro ⟨t, ht, hsuf⟩
          rcases List.mem_cons.mp ht with ht | ht
          · rw [ht] at hsuf
            rw [hsuf] at ha'
            exact Bool.noConfusion ha'
          · exact ⟨t, ht, hsuf⟩

theorem mem_log_dispatch {docTypes : List String} {doer : String → String → Option String}
    {urls : List tUrl} {s t : String}
    (h : (s, t) ∈ (analyserRun docTypes doer urls).2) :
    dispatchType docTypes s = some t := by
  rw [analyserRun, analyserRun_log] at h
  simp only [List.nil_append, List.mem_filterMap] at h
  obtain ⟨u, hu, hmap⟩ := h
  rw [Option.map_eq_some'] at hmap
  obtain ⟨t', hd, heq⟩ := hmap
  have h1 : u.urlString = s := congrArg Prod.fst heq
  have h2 : t' = t := congrArg Prod.snd heq
  rw [← h1, ← h2]
  exact hd

/-- Sample inputs for concrete evaluations of the analyser. -/
def pdfUrl : tUrl := ⟨"https", "h", "/doc.pdf", ""⟩

def queryUrl : tUrl := ⟨"https", "h", "/doc.pdf", "v=1"⟩

def trickyQueryUrl : tUrl := ⟨"https", "h", "/doc.pdf", "v=a.pdf"⟩

/-- A `Do` model that always succeeds with metadata `"M"`. -/
def doerOk : String → String → Option String := fun _ _ => some "M"

/-- A `Do` model that always fails. -/
def doerFail : String → String → Option String := fun _ _ => none

/-- C5: analyzer dispatch selects the document type by suffix match
against the requested list in order (`dispatchType` returns `some t`
exactly when `t` is the first entry of the list whose dotted suffix
matches the canonical string); a URL is dispatched to at most one type
(two log entries for it carry the same type); it is dispatched exactly
once when some requested type's suffix matches, and never dispatched
when none does. -/
theorem analyser_dispatch_spec (docTypes : List String)
    (doer : String → String → Option String) (urls : List tUrl) (u : tUrl)
    (hnd : (urls.map tUrl.urlString).Nodup) (hu : u ∈ urls) :
    (∀ t, dispatchType docTypes u.urlString = some t ↔
       ∃ l₁ l₂, docTypes = l₁ ++ t :: l₂ ∧
         strHasSuffix u.urlString ("." ++ t) = true ∧
         ∀ t' ∈ l₁, strHasSuffix u.urlString ("." ++ t') = false)
    ∧ ((∃ t ∈ docTypes, strHasSuffix u.urlString ("." ++ t) = true) →
        ((analyserRun docTypes doer urls).2.map Prod.fst).count u.urlString = 1)
    ∧ ((∀ t ∈ docTypes, strHasSuffix u.urlString ("." ++ t) = false) →
        u.urlString ∉ (analyserRun docTypes doer urls).2.map Prod.fst)
    ∧ (∀ t t', (u.urlString, t) ∈ (analyserRun docTypes doer urls).2 →
        (u.urlString, t') ∈ (analyserRun docTypes doer urls).2 → t = t') := by
  have hlog := analyserRun_log_fst docTypes doer urls
  refine ⟨fun t => dispatchType_eq_some_iff docTypes u.urlString t, ?_, ?_, ?_⟩
  · intro ⟨t, ht, hsuf⟩
    have hSome : (dispatchType docTypes u.urlString).isSome = true :=
      (dispatchType_isSome_iff docTypes u.urlString).mpr ⟨t, ht, hsuf⟩
    have hmem : u.urlString ∈ (analyserRun docTypes doer urls).2.map Prod.fst := by
      rw [hlog]
      exact List.mem_map_of_mem tUrl.urlString (List.mem_filter_of_mem hu hSome)
    have hnd' : ((analyserRun docTypes doer urls).2.map Prod.fst).Nodup := by
      rw [hlog]
      exact List.Nodup.sublist
        (List.Sublist.map tUrl.urlString (List.filter_sublist urls)) hnd
    exact List.count_eq_one_of_mem hnd' hmem
  · intro hnone hmem
    rw [hlog] at hmem
    obtain ⟨v, hv, hveq⟩ := List.mem_map.mp hmem
    have hvSome := (List.mem_filter.mp hv).2
    rw [hveq] at hvSome
    obtain ⟨t, ht, hsuf⟩ := (dispatchType_isSome_iff docTypes u.urlString).mp hvSome
    rw [hnone t ht] at hsuf
    exact Bool.noConfusion hsuf
  · intro t t' hmem hmem'
    have h1 := mem_log_dispatch hmem
    have h2 := mem_log_dispatch hmem'
    rw [h1] at h2
    exact Option.some.inj h2

theorem analyser_dispatch_spec_witness :
    ((analyserRun ["pdf"] doerOk [pdfUrl]).2.map Prod.fst).count pdfUrl.urlString = 1 :=
  (analyser_dispatch_spec ["pdf"] doerOk [pdfUrl] pdfUrl (by decide)
    (List.mem_singleton.mpr rfl)).2.1 ⟨"pdf", List.mem_singleton.mpr rfl, by decide⟩

/-- C6: for a dispatched URL, a successful `Do` records exactly the
produced result under the URL's canonical string in `docStorage` and it
is never overwritten afterwards (its final lookup is that result); a
failed `Do` leaves the URL absent from `docStorage`; the URL is
dispatched at most once (no retry); and the `analyser` method surfaces
no error to its caller (it always returns `nil`). -/
theorem analyser_result_spec (docTypes : List String)
    (doer : String → String → Option String) (urls : List tUrl) (u : tUrl) (t : String)
    (hnd : (urls.map tUrl.urlString).Nodup) (hu : u ∈ urls)
    (hd : dispatchType docTypes u.urlString = some t) :
    (∀ m, doer t u.urlString = some m →
       lookupA u.urlString (analyserRun docTypes doer urls).1 = some m)
    ∧ (doer t u.urlString = none →
       lookupA u.urlString (analyserRun docTypes doer urls).1 = none)
    ∧ ((analyserRun docTypes doer urls).2.map Prod.fst).count u.urlString ≤ 1
    ∧ analyserReturnValue docTypes doer urls = none := by
  have hmem : u.urlString ∈ urls.map tUrl.urlString := List.mem_map_of_mem tUrl.urlString hu
  have hbase := lookup_analyser_foldl docTypes doer urls ([], []) u.urlString hnd
  refine ⟨?_, ?_, ?_, rfl⟩
  · intro m hm
    simp only [hmem, if_true, hd, hm] at hbase
    exact hbase
  · intro hm
    simp only [hmem, if_true, hd, hm, lookupA] at hbase
    exact hbase
  · have hnd' : ((analyserRun docTypes doer urls).2.map Prod.fst).Nodup := by
      rw [analyserRun_log_fst docTypes doer urls]
      exact List.Nodup.sublist
        (List.Sublist.map tUrl.urlString (List.filter_sublist urls)) hnd
    exact List.nodup_iff_count_le_one.mp hnd' u.urlString

theorem analyser_result_spec_witness :
    lookupA pdfUrl.urlString (analyserRun ["pdf"] doerFail [pdfUrl]).1 = none :=
  (analyser_result_spec ["pdf"] doerFail [pdfUrl] pdfUrl "pdf" (by decide)
    (List.mem_singleton.mpr rfl) (by decide)).2.1 rfl

/-- C10 counterexample: the claim says a URL whose path ends in `.pdf`
but which carries a non-empty query string is never dispatched; but the
suffix test runs on the full canonical string, so when the query itself
ends in `.pdf` (here `?v=a.pdf`) the URL IS dispatched (it appears in
the dispatch log) and, with a succeeding analyzer, IS present in the
results. -/
theorem suffix_query_counterexample :
    trickyQueryUrl.path = "/doc.pdf" ∧
    strHasSuffix trickyQueryUrl.path ".pdf" = true ∧
    trickyQueryUrl.query = "v=a.pdf" ∧
    dispatchType ["pdf"] trickyQueryUrl.urlString = some "pdf" ∧
    (analyserRun ["pdf"] doerOk [trickyQueryUrl]).2.map Prod.fst = [trickyQueryUrl.urlString] ∧
    lookupA trickyQueryUrl.urlString (analyserRun ["pdf"] doerOk [trickyQueryUrl]).1 = some "M" := by
  refine ⟨rfl, by decide, rfl, by decide, by decide, by decide⟩

/-- C10 (amended): the dispatch suffix test is applied to the full
canonical URL string including any query component, so a URL is never
dispatched (and is absent from `docStorage`) whenever the full string —
not merely the path — fails every requested dotted suffix; in
particular a `.pdf` path followed by a query not itself ending in
`.pdf`, such as `https://h/doc.pdf?v=1`, is never analyzed. -/
theorem suffix_query_spec (docTypes : List String)
    (doer : String → String → Option String) (urls : List tUrl) (s : String)
    (h : ∀ t ∈ docTypes, strHasSuffix s ("." ++ t) = false) :
    dispatchType docTypes s = none ∧
    s ∉ (analyserRun docTypes doer urls).2.map Prod.fst ∧
    lookupA s (analyserRun docTypes doer urls).1 = none := by
  have hd : dispatchType docTypes s = none := by
    rw [dispatchType, List.find?_eq_none]
    intro t ht
    simp [h t ht]
  refine ⟨hd, ?_, ?_⟩
  · intro hmem
    rw [analyserRun_log_fst docTypes doer urls] at hmem
    obtain ⟨v, hv, hveq⟩ := List.mem_map.mp hmem
    have hvSome := (List.mem_filter.mp hv).2
    rw [hveq, hd] at hvSome
    exact Bool.noConfusion hvSome
  · rw [analyserRun, lookup_analyser_no_dispatch docTypes doer hd urls ([], [])]
    rfl

theorem suffix_query_spec_witness :
    dispatchType ["pdf"] queryUrl.urlString = none ∧
    lookupA queryUrl.urlString (analyserRun ["pdf"] doerOk [queryUrl]).1 = none := by
  have h := suffix_query_spec ["pdf"] doerOk [queryUrl] queryUrl.urlString (by decide)
  exact ⟨h.1, h.2.2⟩

/-- Tail of a comma-separated rendering: each item preceded by `","`. -/
def commaTail : List String → String
  | [] => ""
  | m :: r => "," ++ m ++ commaTail r

/-- Comma-separated rendering of a list of serialized objects. -/
def commaSep : List String → String
  | [] => ""
  | m :: r => m ++ commaTail r

/-- One iteration of `tEngine.output`'s loop: if the URL has a recorded
result, write `","` unless it is the first element, then write the
serialized metadata; `acc.2` is `isFirst`. -/
def outputStep (store : List (String × String)) (acc : String × Bool) (u : tUrl) :
    String × Bool :=
  match lookupA u.urlString store with
  | some m => ((if acc.2 then acc.1 else acc.1 ++ ",") ++ m, false)
  | none => acc

/-- Model of `tEngine.output`: the full string written to the sink. -/
def output (store : List (String × String)) (urls : List tUrl) : String :=
  (urls.foldl (outputStep store) ("[", true)).1 ++ "]"

theorem output_foldl (store : List (String × String)) :
    ∀ (urls : List tUrl) (pre : String),
      (urls.foldl (outputStep store) (pre, true)).1 =
        pre ++ commaSep (urls.filterMap (fun u => lookupA u.urlString store)) ∧
      (urls.foldl (outputStep store) (pre, false)).1 =
        pre ++ commaTail (urls.filterMap (fun u => lookupA u.urlString store)) := by
  intro urls
  induction urls with
  | nil =>
      intro pre
      constructor <;> simp [commaSep, commaTail]
  | cons u rest ih =>
      intro pre
      rcases hl : lookupA u.urlString store with _ | m
      · simp only [List.foldl_cons, List.filterMap_cons, hl]
        constructor
        · rw [show outputStep store (pre, true) u = (pre, true) by simp [outputStep, hl]]
          exact (ih pre).1
        · rw [show outputStep store (pre, false) u = (pre, false) by simp [outputStep, hl]]
          exact (ih pre).2
      · simp only [List.foldl_cons, List.filterMap_cons, hl]
        constructor
        · rw [show outputStep store (pre, true) u = (pre ++ m, false) by
            simp [outputStep, hl]]
          rw [(ih (pre ++ m)).2, commaSep]
          simp [String.append_assoc]
        · rw [show outputStep store (pre, false) u = (pre ++ "," ++ m, false) by
            simp [outputStep, hl]]
          rw [(ih (pre ++ "," ++ m)).2, commaTail]
          simp [String.append_assoc]

/-- C7: the emitted output is always a single JSON array: `"["`, then
the recorded results of the URLs in registry iteration order separated
by `","`, then `"]"`; when no analyzer succeeded (no URL has a recorded
result) the output is exactly `"[]"`. -/
theorem output_spec (store : List (String × String)) (urls : List tUrl) :
    output store urls =
      "[" ++ commaSep (urls.filterMap (fun u => lookupA u.urlString store)) ++ "]"
    ∧ ((∀ u ∈ urls, lookupA u.urlString store = none) → output store urls = "[]") := by
  constructor
  · rw [output, (output_foldl store urls "[").1]
  · intro hnone
    have hempty : urls.filterMap (fun u => lookupA u.urlString store) = [] := by
      rw [List.filterMap_eq_nil_iff]
      intro u hu
      rw [hnone u hu]
    rw [output, (output_foldl store urls "[").1, hempty]
    rfl

theorem output_spec_witness :
    output [] [pdfUrl] = "[]" :=
  (output_spec [] [pdfUrl]).2 (by intro u hu; rfl)

/-- `researchers.maxFileSize`: 100 MiB. -/
def maxFileSize : Nat := 100 * 1024 * 1024

/-- Model of `readCloserToReadSeekerFile`, with the response body
modelled by its byte length (transport errors out of scope).  The
`io.LimitedReader` built with initial count `N = maxFileSize` lets
`io.Copy` copy `min bodyLen maxFileSize` bytes, after which the
reader's remaining count is `maxFileSize - copied`; when that count
reached `0` the function closes and removes the temporary file and
returns the oversized-file error.  Result: `(some copiedBytes, tmpRemoved)`
on success, `(none, true)` on the oversized error. -/
def readCloserToReadSeekerFile (bodyLen : Nat) : Option Nat × Bool :=
  let copied := min bodyLen maxFileSize
  let remaining := maxFileSize - copied
  if remaining = 0 then (none, true) else (some copied, false)

/-- A `Do` model whose download step is `readCloserToReadSeekerFile` on
a body of `bodyLen` bytes: it fails exactly when the download helper
fails (parsing assumed to succeed, producing metadata `"M"`). -/
def doerOfBody (bodyLen : Nat) : String → String → Option String :=
  fun _ _ => (readCloserToReadSeekerFile bodyLen).1.map (fun _ => "M")

/-- C8: a downloaded document whose body exceeds `maxFileSize` makes the
download helper return the oversized-file error (`none`) and remove the
temporary file, and — the error propagating out of `Do` exactly as for
a parse failure — the URL is recorded nowhere in `docStorage`, i.e. it
is silently dropped from the results. -/
theorem oversized_dropped_spec (bodyLen : Nat) (h : maxFileSize < bodyLen) :
    (readCloserToReadSeekerFile bodyLen).1 = none ∧
    (readCloserToReadSeekerFile bodyLen).2 = true ∧
    (∀ (docTypes : List String) (urls : List tUrl) (s : String),
       lookupA s (analyserRun docTypes (doerOfBody bodyLen) urls).1 = none) := by
  have hmin : min bodyLen maxFileSize = maxFileSize := Nat.min_eq_right (Nat.le_of_lt h)
  have hrc : readCloserToReadSeekerFile bodyLen = (none, true) := by
    rw [readCloserToReadSeekerFile]
    simp [hmin]
  refine ⟨by rw [hrc], by rw [hrc], ?_⟩
  intro docTypes urls s
  have hdoer : ∀ t s', doerOfBody bodyLen t s' = none := by
    intro t s'
    rw [doerOfBody]
    simp [hrc]
  have hstore : ∀ (us : List tUrl) (acc : List (String × String) × List (String × String)),
      lookupA s (List.foldl (analyserStep docTypes (doerOfBody bodyLen)) acc us).1 =
        lookupA s acc.1 := by
    intro us
    induction us with
    | nil => intro acc; rfl
    | cons u rest ih =>
        intro acc
        simp only [List.foldl_cons]
        rw [ih]
        rcases hd : dispatchType docTypes u.urlString with _ | t
        · simp [analyserStep, hd]
        · simp [analyserStep, hd, hdoer]
  rw [analyserRun, hstore urls ([], [])]
  rfl

theorem oversized_dropped_spec_witness :
    (readCloserToReadSeekerFile (maxFileSize + 1)).1 = none ∧
      lookupA pdfUrl.urlString
        (analyserRun ["pdf"] (doerOfBody (maxFileSize + 1)) [pdfUrl]).1 = none := by
  have h := oversized_dropped_spec (maxFileSize + 1) (Nat.lt_succ_self maxFileSize)
  exact ⟨h.1, h.2.2 ["pdf"] [pdfUrl] pdfUrl.urlString⟩

/-- C9: the boundary of the size ceiling.  The helper errors exactly when
the body length is at least `maxFileSize` (the `LimitedReader`'s
remaining count reaches `0`), so a document of exactly
`maxFileSize = 100*1024*1024` bytes is also rejected (with its
temporary file removed), not only documents strictly exceeding the
ceiling. -/
theorem size_limit_boundary_spec (bodyLen : Nat) :
    ((readCloserToReadSeekerFile bodyLen).1 = none ↔ maxFileSize ≤ bodyLen)
    ∧ (readCloserToReadSeekerFile maxFileSize).1 = none
    ∧ (readCloserToReadSeekerFile maxFileSize).2 = true
    ∧ (readCloserToReadSeekerFile (maxFileSize - 1)).1 = some (maxFileSize - 1) := by
  refine ⟨?_, by decide, by decide, by decide⟩
  constructor
  · intro h
    by_contra hlt
    have hlt' : bodyLen < maxFileSize := Nat.lt_of_not_le hlt
    have hmin : min bodyLen maxFileSize = bodyLen := Nat.min_eq_left (Nat.le_of_lt hlt')
    rw [readCloserToReadSeekerFile] at h
    simp only [hmin] at h
    have hne : maxFileSize - bodyLen ≠ 0 := Nat.sub_ne_zero_of_lt hlt'
    rw [if_neg hne] at h
    exact Option.noConfusion h
  · intro h
    have hmin : min bodyLen maxFileSize = maxFileSize := Nat.min_eq_right h
    rw [readCloserToReadSeekerFile]
    simp [hmin]

/-- Go `net/url`'s `validOptionalPort`: empty, or `':'` followed by
digits only. -/
def validOptionalPort (port : List Char) : Bool :=
  match port with
  | [] => true
  | c :: rest => c == ':' && rest.all (fun d => d.isDigit)

/-- Index of the last `':'` (Go `strings.LastIndexByte(host, ':')`). -/
def lastIndexOfColon (cs : List Char) : Option Nat :=
  match cs.reverse.findIdx? (fun c => c == ':') with
  | none => none
  | some i => some (cs.length - 1 - i)

/-- Go `net/url.splitHostPort`'s port stripping. -/
def stripPort (cs : List Char) : List Char :=
  match lastIndexOfColon cs with
  | none => cs
  | some i => if validOptionalPort (cs.drop i) then cs.take i else cs

/-- Go `net/url.splitHostPort`'s IPv6 bracket stripping. -/
def stripBrackets (cs : List Char) : List Char :=
  if cs.head? == some '[' && cs.getLast? == some ']' then (cs.drop 1).dropLast else cs

/-- Model of `URL.Hostname()`: host without port or brackets. -/
def hostnameOf (h : String) : String := ⟨stripBrackets (stripPort h.data)⟩

/-- Model of `isValidScheme`: the URL uses http or https. -/
def isValidScheme (u : tUrl) : Bool := u.scheme == "http" || u.scheme == "https"

/-- The coordinator's expansion filter in `tEngine.crawl`:
`isValidScheme(urlBase) && hostname == urlBase.Hostname()` where
`hostname` is the start URL's hostname. -/
def crawlFilter (hostname : String) (u : tUrl) : Bool :=
  isValidScheme u && (hostnameOf u.host == hostname)

/-- State of the crawl phase: the URL registry, the pages currently
being harvested by in-flight workers (the guard channel's occupied
slots), and the history of every page ever handed to a worker. -/
structure CState where
  store : tUrlStorage
  inFlight : List tUrl
  harvested : List tUrl
  deriving DecidableEq, Repr

/-- Small-step relation of the `tEngine.crawl` loop.  `links p` is the
abstract link graph: the URLs that `harv` successfully resolves on the
page with canonical string `p` (fetch/parse failures contribute no
links).  `spawn`: `use` succeeds, the filter passes and a guard slot is
free, so a worker is started.  `dropStep`: `use` succeeds but the filter
fails — the URL stays used and nothing is spawned.  `complete`: an
in-flight worker finishes, adding its page's links to the registry.
The loop's sleep (nothing acquirable, workers active) does not change
state and is not a step. -/
inductive CrawlStep (links : String → List tUrl) (hostname : String) (P : Nat) :
    CState → CState → Prop
  | spawn {s : CState} {u : tUrl} {st' : tUrlStorage} :
      s.store.use = (some u, true, st') →
      crawlFilter hostname u = true →
      s.inFlight.length < P →
      CrawlStep links hostname P s ⟨st', u :: s.inFlight, u :: s.harvested⟩
  | dropStep {s : CState} {u : tUrl} {st' : tUrlStorage} :
      s.store.use = (some u, true, st') →
      crawlFilter hostname u = false →
      CrawlStep links hostname P s ⟨st', s.inFlight, s.harvested⟩
  | complete {s : CState} (l₁ : List tUrl) (u : tUrl) (l₂ : List tUrl) :
      s.inFlight = l₁ ++ u :: l₂ →
      CrawlStep links hostname P s
        ⟨s.store.addAll ((links u.urlString).map some), l₁ ++ l₂, s.harvested⟩

/-- Crawl-phase invariant over a finite URL universe `U` (a list of
canonical strings closed under the link graph). -/
def CInv (links : String → List tUrl) (hostname : String) (U : List String)
    (s : CState) : Prop :=
  StInv s.store ∧
  (∀ k ∈ s.store.urlStatus.map Prod.fst, k ∈ U) ∧
  (∀ p ∈ U, ∀ v ∈ links p, v.urlString ∈ U) ∧
  (∀ u ∈ s.harvested, crawlFilter hostname u = true ∧
    lookupA u.urlString s.store.urlStatus = some true) ∧
  (s.harvested.map tUrl.urlString).Nodup ∧
  (∀ u ∈ s.inFlight, u ∈ s.harvested)

instance (links : String → List tUrl) (hostname : String) (U : List String) :
    DecidablePred (CInv links hostname U) := fun s => by
  unfold CInv
  infer_instance

/-- Registry part of the termination measure. -/
def potential (U : List String) (st : tUrlStorage) : Nat :=
  4 * (U.filter (fun k => (lookupA k st.urlStatus).isNone)).length +
    3 * (st.urlStatus.filter (fun p => !p.2)).length

/-- Termination measure of the crawl loop. -/
def crawlMeasure (U : List String) (s : CState) : Nat :=
  potential U s.store + 2 * s.inFlight.length

theorem length_filter_and_le (l : List String) (p q : String → Bool) :
    (l.filter (fun k => p k && q k)).length ≤ (l.filter p).length := by
  induction l with
  | nil => simp
  | cons a rest ih =>
      cases hp : p a <;> cases hq : q a <;>
        simp [List.filter_cons, hp, hq] <;> omega

theorem length_filter_and_ne {U : List String} {p : String → Bool} {key : String}
    (hkey : key ∈ U) (hp : p key = true) :
    (U.filter (fun k => p k && !(k == key))).length + 1 ≤ (U.filter p).length := by
  induction U with
  | nil => simp at hkey
  | cons a rest ih =>
      by_cases ha : a = key
      · subst ha
        have h1 : List.filter (fun k => p k && !(k == a)) (a :: rest) =
            List.filter (fun k => p k && !(k == a)) rest := by
          rw [List.filter_cons]
          simp
        have h2 : List.filter p (a :: rest) = a :: List.filter p rest := by
          rw [List.filter_cons, if_pos hp]
        rw [h1, h2]
        have h3 := length_filter_and_le rest p (fun k => !(k == a))
        simp only [List.length_cons]
        omega
      · have hkey' : key ∈ rest := by
          rcases List.mem_cons.mp hkey with h | h
          · exact absurd h.symm ha
          · exact h
        have hne : (a == key) = false := beq_eq_false_iff_ne.mpr ha
        have hih := ih hkey'
        rw [List.filter_cons, List.filter_cons]
        cases hpa : p a
        · simp only [hne, Bool.not_false, Bool.and_true, hpa, Bool.false_and, if_false]
          exact hih
        · simp only [hne, Bool.not_false, Bool.and_true, hpa, Bool.true_and, if_true,
            List.length_cons]
          omega

theorem add_lookup_some_preserved {st : tUrlStorage} (v? : Option tUrl) {k : String}
    {b : Bool} (h : lookupA k st.urlStatus = some b) :
    lookupA k (st.add v?).1.urlStatus = some b := by
  rcases v? with _ | v
  · rw [add_none]
    exact h
  · by_cases hs : (lookupA v.urlString st.urlStatus).isSome
    · rw [add_dup hs]
      exact h
    · have hnone : lookupA v.urlString st.urlStatus = none :=
        Option.not_isSome_iff_eq_none.mp hs
      rw [add_new hnone]
      exact lookupA_append_some _ h

theorem addAll_lookup_some_preserved (l : List (Option tUrl)) :
    ∀ (st : tUrlStorage) {k : String} {b : Bool},
      lookupA k st.urlStatus = some b →
      lookupA k (st.addAll l).urlStatus = some b := by
  induction l with
  | nil =>
      intro st k b h
      exact h
  | cons v? t ih =>
      intro st k b h
      exact ih _ (add_lookup_some_preserved v? h)

theorem potential_add_le (U : List String) (st : tUrlStorage) (v? : Option tUrl)
    (h : ∀ v, v? = some v → v.urlString ∈ U) :
    potential U (st.add v?).1 ≤ potential U st := by
  rcases v? with _ | v
  · rw [add_none]
  · by_cases hs : (lookupA v.urlString st.urlStatus).isSome
    · rw [add_dup hs]
    · have hnone : lookupA v.urlString st.urlStatus = none :=
        Option.not_isSome_iff_eq_none.mp hs
      rw [add_new hnone]
      have hkU : v.urlString ∈ U := h v rfl
      have hpointwise : ∀ k ∈ U,
          ((lookupA k (st.urlStatus ++ [(v.urlString, false)])).isNone) =
            ((lookupA k st.urlStatus).isNone && !(k == v.urlString)) := by
        intro k _
        rcases hl : lookupA k st.urlStatus with _ | b
        · rw [lookupA_append_of_none _ hl]
          by_cases hk : k = v.urlString
          · subst hk
            simp [lookupA]
          · have h2 : (k == v.urlString) = false := beq_eq_false_iff_ne.mpr hk
            simp only [lookupA]
            rw [if_neg (fun hh => hk hh.symm)]
            simp [h2]
        · rw [lookupA_append_some _ hl]
          simp
      have hfilter : (U.filter (fun k => (lookupA k (st.urlStatus ++ [(v.urlString, false)])).isNone)) =
          (U.filter (fun k => (lookupA k st.urlStatus).isNone && !(k == v.urlString))) :=
        List.filter_congr hpointwise
      have hstrict : (U.filter (fun k =>
            (lookupA k st.urlStatus).isNone && !(k == v.urlString))).length + 1 ≤
          (U.filter (fun k => (lookupA k st.urlStatus).isNone)).length :=
        length_filter_and_ne hkU (by simp [hnone])
      have hunused : ((st.urlStatus ++ [(v.urlString, false)]).filter (fun p => !p.2)).length =
          (st.urlStatus.filter (fun p => !p.2)).length + 1 := by
        simp [List.filter_append]
      simp only [potential, hfilter, hunused]
      omega

theorem potential_addAll_le (U : List String) (l : List (Option tUrl)) :
    ∀ (st : tUrlStorage), (∀ v, some v ∈ l → v.urlString ∈ U) →
      potential U (st.addAll l) ≤ potential U st := by
  induction l with
  | nil => exact fun st _ => Nat.le_refl _
  | cons v? t ih =>
      intro st hU
      have h1 : potential U (st.add v?).1 ≤ potential U st :=
        potential_add_le U st v? (fun v hv => hU v (hv ▸ List.mem_cons_self v? t))
      have h2 : potential U ((st.add v?).1.addAll t) ≤ potential U (st.add v?).1 :=
        ih _ (fun v hv => hU v (List.mem_cons_of_mem v? hv))
      exact Nat.le_trans h2 h1

theorem crawlStep_inv {links : String → List tUrl} {hostname : String} {P : Nat}
    {U : List String} {s s' : CState}
    (hInv : CInv links hostname U s) (hstep : CrawlStep links hostname P s s') :
    CInv links hostname U s' ∧ crawlMeasure U s' < crawlMeasure U s := by
  obtain ⟨hSt, hkeysU, hclosure, hharv, hhnd, hifh⟩ := hInv
  cases hstep with
  | spawn huse hfil hlen =>
      rename_i u st'
      rcases hq : s.store.queue with _ | ⟨k, t⟩
      · rw [use_queue_nil hq] at huse
        exact absurd (congrArg Prod.fst huse) (by simp)
      · obtain ⟨u₀, st₀', huse', hustr, hobj, hkf, hstat, hobjeq, hqperm, hSt'⟩ :=
          use_found hSt hq
        rw [huse'] at huse
        have hu : u₀ = u := by
          have := congrArg Prod.fst huse
          simpa using this
        have hst : st₀' = st' := by
          have := congrArg (fun x => x.2.2) huse
          simpa using this
        subst hu
        subst hst
        have hkSome : (lookupA k s.store.urlStatus).isSome := by rw [hkf]; rfl
        have hkeys' : st₀'.urlStatus.map Prod.fst = s.store.urlStatus.map Prod.fst := by
          rw [hstat, updateA_keys_of_mem true hkSome]
        have hnotharv : ∀ v ∈ s.harvested, v.urlString ≠ k := by
          intro v hv hvk
          have := (hharv v hv).2
          rw [hvk, hkf] at this
          simp at this
        refine ⟨⟨hSt', ?_, hclosure, ?_, ?_, ?_⟩, ?_⟩
        · intro k' hk'
          rw [hkeys'] at hk'
          exact hkeysU k' hk'
        · intro v hv
          rcases List.mem_cons.mp hv with hv | hv
          · subst hv
            refine ⟨hfil, ?_⟩
            rw [hustr, hstat, lookupA_updateA_self]
          · refine ⟨(hharv v hv).1, ?_⟩
            rw [hstat, lookupA_updateA_ne true s.store.urlStatus (hnotharv v hv)]
            exact (hharv v hv).2
        · simp only [List.map_cons, List.nodup_cons]
          refine ⟨?_, hhnd⟩
          intro hmem
          obtain ⟨v, hv, hveq⟩ := List.mem_map.mp hmem
          exact hnotharv v hv (hveq.trans hustr)
        · intro v hv
          rcases List.mem_cons.mp hv with hv | hv
          · exact hv ▸ List.mem_cons_self u₀ s.harvested
          · exact List.mem_cons_of_mem u₀ (hifh v hv)
        · have hm1 : (U.filter (fun k' => (lookupA k' st₀'.urlStatus).isNone)) =
              (U.filter (fun k' => (lookupA k' s.store.urlStatus).isNone)) := by
            apply List.filter_congr
            intro k' _
            by_cases hk' : k' = k
            · subst hk'
              rw [hstat, lookupA_updateA_self, hkf]
              rfl
            · rw [hstat, lookupA_updateA_ne true s.store.urlStatus hk']
          have hun : ((st₀'.urlStatus.filter (fun p => !p.2)).length) + 1 =
              ((s.store.urlStatus.filter (fun p => !p.2)).length) := by
            rw [hstat]
            exact unusedCount_updateA_true hkf
          simp only [crawlMeasure, potential, hm1, List.length_cons]
          omega
  | dropStep huse hfil =>
      rename_i u st'
      rcases hq : s.store.queue with _ | ⟨k, t⟩
      · rw [use_queue_nil hq] at huse
        exact absurd (congrArg Prod.fst huse) (by simp)
      · obtain ⟨u₀, st₀', huse', hustr, hobj, hkf, hstat, hobjeq, hqperm, hSt'⟩ :=
          use_found hSt hq
        rw [huse'] at huse
        have hu : u₀ = u := by
          have := congrArg Prod.fst huse
          simpa using this
        have hst : st₀' = st' := by
          have := congrArg (fun x => x.2.2) huse
          simpa using this
        subst hu
        subst hst
        have hkSome : (lookupA k s.store.urlStatus).isSome := by rw [hkf]; rfl
        have hkeys' : st₀'.urlStatus.map Prod.fst = s.store.urlStatus.map Prod.fst := by
          rw [hstat, updateA_keys_of_mem true hkSome]
        have hnotharv : ∀ v ∈ s.harvested, v.urlString ≠ k := by
          intro v hv hvk
          have := (hharv v hv).2
          rw [hvk, hkf] at this
          simp at this
        refine ⟨⟨hSt', ?_, hclosure, ?_, hhnd, hifh⟩, ?_⟩
        · intro k' hk'
          rw [hkeys'] at hk'
          exact hkeysU k' hk'
        · intro v hv
          refine ⟨(hharv v hv).1, ?_⟩
          rw [hstat, lookupA_updateA_ne true s.store.urlStatus (hnotharv v hv)]
          exact (hharv v hv).2
        · have hm1 : (U.filter (fun k' => (lookupA k' st₀'.urlStatus).isNone)) =
              (U.filter (fun k' => (lookupA k' s.store.urlStatus).isNone)) := by
            apply List.filter_congr
            intro k' _
            by_cases hk' : k' = k
            · subst hk'
              rw [hstat, lookupA_updateA_self, hkf]
              rfl
            · rw [hstat, lookupA_updateA_ne true s.store.urlStatus hk']
          have hun : ((st₀'.urlStatus.filter (fun p => !p.2)).length) + 1 =
              ((s.store.urlStatus.filter (fun p => !p.2)).length) := by
            rw [hstat]
            exact unusedCount_updateA_true hkf
          simp only [crawlMeasure, potential, hm1]
          omega
  | complete l₁ u l₂ hif =>
      have humem : u ∈ s.inFlight := by
        rw [hif]
        exact List.mem_append.mpr (Or.inr (List.mem_cons_self u l₂))
      have huharv : u ∈ s.harvested := hifh u humem
      have hukey : u.urlString ∈ s.store.urlStatus.map Prod.fst := by
        rw [← lookupA_isSome_iff, (hharv u huharv).2]
        rfl
      have huU : u.urlString ∈ U := hkeysU _ hukey
      have hlinksU : ∀ v, some v ∈ ((links u.urlString).map some) → v.urlString ∈ U := by
        intro v hv
        obtain ⟨w, hw, hweq⟩ := List.mem_map.mp hv
        have : w = v := Option.some.inj hweq
        subst this
        exact hclosure _ huU w hw
      refine ⟨⟨addAll_preserves_StInv _ _ hSt, ?_, hclosure, ?_, hhnd, ?_⟩, ?_⟩
      · intro k hk
        rw [addAll_keys_mem] at hk
        rcases hk with hk | hk
        · exact hkeysU k hk
        · have hfm : List.filterMap id ((links u.urlString).map some) = links u.urlString := by
            simp
          rw [hfm] at hk
          obtain ⟨w, hw, hweq⟩ := List.mem_map.mp hk
          exact hweq ▸ hclosure _ huU w hw
      · intro v hv
        refine ⟨(hharv v hv).1, ?_⟩
        exact addAll_lookup_some_preserved _ _ (hharv v hv).2
      · intro v hv
        apply hifh
        rw [hif]
        rcases List.mem_append.mp hv with hv | hv
        · exact List.mem_append.mpr (Or.inl hv)
        · exact List.mem_append.mpr (Or.inr (List.mem_cons_of_mem u hv))
      · have hpot : potential U (s.store.addAll ((links u.urlString).map some)) ≤
            potential U s.store := potential_addAll_le U _ s.store hlinksU
        have hlen : s.inFlight.length = (l₁ ++ l₂).length + 1 := by
          rw [hif]
          simp only [List.length_append, List.length_cons]
          omega
        simp only [crawlMeasure]
        omega

theorem crawl_stuck_iff {links : String → List tUrl} {hostname : String} {P : Nat}
    {U : List String} {s : CState} (hP : 0 < P) (hInv : CInv links hostname U s) :
    (∀ s', ¬ CrawlStep links hostname P s s') ↔
      (s.inFlight = [] ∧ (s.store.use).2.1 = false) := by
  obtain ⟨hSt, hkeysU, hclosure, hharv, hhnd, hifh⟩ := hInv
  constructor
  · intro hstuck
    have hIF : s.inFlight = [] := by
      rcases hif : s.inFlight with _ | ⟨u, rest⟩
      · rfl
      · exact absurd (@CrawlStep.complete links hostname P s [] u rest hif) (hstuck _)
    refine ⟨hIF, ?_⟩
    rcases hq : s.store.queue with _ | ⟨k, t⟩
    · rw [use_queue_nil hq]
    · obtain ⟨u₀, st₀', huse', hustr, hobj, hkf, hstat, hobjeq, hqperm, hSt'⟩ :=
        use_found hSt hq
      cases hfil : crawlFilter hostname u₀
      · exact absurd (@CrawlStep.dropStep links hostname P s u₀ st₀' huse' hfil) (hstuck _)
      · have hlen : s.inFlight.length < P := by
          rw [hIF]
          exact hP
        exact absurd (@CrawlStep.spawn links hostname P s u₀ st₀' huse' hfil hlen) (hstuck _)
  · rintro ⟨hIF, hfound⟩ s' hstep
    cases hstep with
    | spawn huse hfil hlen =>
        rw [huse] at hfound
        simp at hfound
    | dropStep huse hfil =>
        rw [huse] at hfound
        simp at hfound
    | complete l₁ u l₂ hif =>
        rw [hIF] at hif
        simp at hif

theorem crawlStep_preserves_used {links : String → List tUrl} {hostname : String}
    {P : Nat} {U : List String} {s s' : CState} (hInv : CInv links hostname U s)
    (hstep : CrawlStep links hostname P s s') {k : String}
    (h : lookupA k s.store.urlStatus = some true) :
    lookupA k s'.store.urlStatus = some true := by
  cases hstep with
  | spawn huse hfil hlen =>
      have := use_preserves_used hInv.1 h
      rw [huse] at this
      exact this
  | dropStep huse hfil =>
      have := use_preserves_used hInv.1 h
      rw [huse] at this
      exact this
  | complete l₁ u l₂ hif =>
      exact addAll_lookup_some_preserved _ _ h

theorem crawlSteps_inv {links : String → List tUrl} {hostname : String} {P : Nat}
    {U : List String} {s s' : CState} (hInv : CInv links hostname U s)
    (hsteps : Relation.ReflTransGen (CrawlStep links hostname P) s s') :
    CInv links hostname U s' := by
  induction hsteps with
  | refl => exact hInv
  | tail hst hstep ih => exact (crawlStep_inv ih hstep).1

theorem crawlSteps_preserves_used {links : String → List tUrl} {hostname : String}
    {P : Nat} {U : List String} {s s' : CState} (hInv : CInv links hostname U s)
    (hsteps : Relation.ReflTransGen (CrawlStep links hostname P) s s') {k : String}
    (h : lookupA k s.store.urlStatus = some true) :
    lookupA k s'.store.urlStatus = some true := by
  induction hsteps with
  | refl => exact h
  | tail hst hstep ih =>
      exact crawlStep_preserves_used (crawlSteps_inv hInv hst) hstep ih

/-- C3: termination of the crawl loop.  Under the crawl invariant over a
finite universe `U` (closed under the link graph), every step of the
coordinator preserves the invariant and strictly decreases a natural-
number measure, so every crawl execution reaches, after finitely many
steps, a state with no step left; and the states with no step left are
exactly those where no unused Registry entry remains and no extraction
worker is in flight (there the loop returns).  Within the invariant,
the harvested history stays duplicate-free: cycles in the link graph
never cause a page to be re-processed. -/
theorem crawl_termination_spec (links : String → List tUrl) (hostname : String)
    (P : Nat) (U : List String) (hP : 0 < P) (s : CState)
    (hInv : CInv links hostname U s) :
    (∀ s', CrawlStep links hostname P s s' →
       CInv links hostname U s' ∧ crawlMeasure U s' < crawlMeasure U s ∧
       (s'.harvested.map tUrl.urlString).Nodup)
    ∧ ((∀ s', ¬ CrawlStep links hostname P s s') ↔
        (s.inFlight = [] ∧ (s.store.use).2.1 = false)) := by
  refine ⟨?_, crawl_stuck_iff hP hInv⟩
  intro s' hstep
  obtain ⟨hInv', hm⟩ := crawlStep_inv hInv hstep
  exact ⟨hInv', hm, hInv'.2.2.2.2.1⟩

/-- C4: host/scheme filtering.  Along any execution of the crawl loop
from an invariant state, every page ever handed to an extraction worker
passed the coordinator's filter (http/https scheme and hostname equal
to the start URL's hostname); a URL failing the filter is never spawned
and never in flight; and every URL already marked `used` stays `used`
forever and remains visible in `getAllUrls` for the later
document-type analysis. -/
theorem crawl_host_filter_spec (links : String → List tUrl) (hostname : String)
    (P : Nat) (U : List String) (s s' : CState) (hInv : CInv links hostname U s)
    (hsteps : Relation.ReflTransGen (CrawlStep links hostname P) s s') :
    (∀ u ∈ s'.harvested, crawlFilter hostname u = true)
    ∧ (∀ u, crawlFilter hostname u = false → u ∉ s'.harvested ∧ u ∉ s'.inFlight)
    ∧ (∀ k, lookupA k s.store.urlStatus = some true →
        lookupA k s'.store.urlStatus = some true ∧
        ∃ v ∈ s'.store.getAllUrls, v.urlString = k) := by
  have hInv' := crawlSteps_inv hInv hsteps
  obtain ⟨hSt', hkeysU', hclosure', hharv', hhnd', hifh'⟩ := hInv'
  refine ⟨fun u hu => (hharv' u hu).1, ?_, ?_⟩
  · intro u hfil
    constructor
    · intro hu
      rw [(hharv' u hu).1] at hfil
      exact Bool.noConfusion hfil
    · intro hu
      rw [(hharv' u (hifh' u hu)).1] at hfil
      exact Bool.noConfusion hfil
  · intro k hk
    have hk' : lookupA k s'.store.urlStatus = some true :=
      crawlSteps_preserves_used hInv hsteps hk
    refine ⟨hk', ?_⟩
    have hkmem : k ∈ s'.store.urlStatus.map Prod.fst := by
      rw [← lookupA_isSome_iff, hk']
      rfl
    have hkobj : k ∈ s'.store.urlObjects.map Prod.fst := by
      rw [hSt'.2.2.2.2.1]
      exact hkmem
    have hkobjSome : (lookupA k s'.store.urlObjects).isSome :=
      lookupA_isSome_iff.mpr hkobj
    obtain ⟨v, hv⟩ := Option.isSome_iff_exists.mp hkobjSome
    refine ⟨v, ?_, hSt'.2.2.2.2.2 (k, v) (lookupA_mem hv)⟩
    rw [tUrlStorage.getAllUrls]
    exact List.mem_map_of_mem Prod.snd (lookupA_mem hv)

/-- Concrete instances for evaluating the crawl theorems. -/
def links0 : String → List tUrl := fun _ => []

def U0 : List String := ["https://example.com/a", "https://example.com/b"]

def cstate0 : CState := ⟨sampleStorage, [], []⟩

def cstate1 : CState := ⟨(sampleStorage.use).2.2, [sampleUrl1], [sampleUrl1]⟩

def ftpUrl : tUrl := ⟨"ftp", "example.com", "/f", ""⟩

theorem crawl_termination_spec_witness :
    CInv links0 "example.com" U0 cstate1 ∧
      crawlMeasure U0 cstate1 < crawlMeasure U0 cstate0 ∧
      (cstate1.harvested.map tUrl.urlString).Nodup :=
  (crawl_termination_spec links0 "example.com" 1 U0 (by decide) cstate0 (by decide)).1
    cstate1 (CrawlStep.spawn (by decide) (by decide) (by decide))

theorem crawl_host_filter_spec_witness :
    ftpUrl ∉ cstate0.harvested ∧ ftpUrl ∉ cstate0.inFlight :=
  (crawl_host_filter_spec links0 "example.com" 1 U0 cstate0 cstate0 (by decide)
    Relation.ReflTransGen.refl).2.1 ftpUrl (by decide)

end DocsCrawler
